import Mathlib

/-!
Verification of the SRT subtitle parser (`src/srt_parser.py`, function `parse_srt`).

The parser is embedded shallowly over `List Char`:
 * `replace1` / `replace2` model Python `str.replace` for one- and two-character
   patterns (left-to-right, non-overlapping);
 * `split1` / `split2` model Python `str.split` for one- and two-character
   separators (keeping empty pieces, as Python does);
 * `pyStrip` models Python `str.strip()` on the ASCII whitespace characters;
 * `stripTags` models `re.sub(r'<[^>]+>', '', text)`;
 * `parseTS` / `tryMatchAt` / `searchTime` model
   `re.search(r'(\d{2}:\d{2}:\d{2}[,.]\d{3})\s*-->\s*(\d{2}:\d{2}:\d{2}[,.]\d{3})', line)`
   (leftmost match; every sub-pattern of this regex is deterministic, so the
   scan over start positions is an exact model);
 * `parse_srt` is the whole decoder: normalize line endings, strip, split into
   blocks on two consecutive newlines, and run the per-block logic, appending
   each produced entry (Python `parsed_subs.append`) in block order.

Characters are Lean `Char`; the Python `\d`, `\s` classes and `str.strip` are
modelled on their ASCII parts, which is what SRT data uses.
-/

/-- Python's ASCII whitespace: the characters stripped by `str.strip()` and
matched by the regex class `\s` (space, tab, newline, carriage return,
vertical tab, form feed). -/
def pyIsSpace (c : Char) : Bool :=
  c == ' ' || c == '\t' || c == '\n' || c == '\r' || c.toNat == 11 || c.toNat == 12

/-- Python `str.strip()`: drop whitespace from both ends. -/
def pyStrip (l : List Char) : List Char :=
  ((l.dropWhile pyIsSpace).reverse.dropWhile pyIsSpace).reverse

/-- Python `s.replace(a, b)` for a single-character pattern `a` and
single-character replacement `b`. -/
def replace1 (a b : Char) : List Char → List Char
  | [] => []
  | c :: rest => (if c = a then b else c) :: replace1 a b rest

/-- Python `s.replace(ab, r)` for a two-character pattern: left-to-right,
non-overlapping. Used for `replace('\r\n', '\n')` and `replace('- ', '')`. -/
def replace2 (a b : Char) (r : List Char) : List Char → List Char
  | [] => []
  | [c] => [c]
  | c1 :: c2 :: rest =>
    if c1 = a ∧ c2 = b then r ++ replace2 a b r rest
    else c1 :: replace2 a b r (c2 :: rest)

/-- Python `s.split(a)` for a single-character separator (empty pieces kept). -/
def split1 (a : Char) : List Char → List (List Char)
  | [] => [[]]
  | c :: rest =>
    if c = a then [] :: split1 a rest
    else
      match split1 a rest with
      | [] => [[c]]
      | p :: ps => (c :: p) :: ps

/-- Python `s.split(ab)` for a two-character separator: pieces between
left-to-right non-overlapping occurrences of the separator. -/
def split2 (a b : Char) : List Char → List (List Char)
  | [] => [[]]
  | [c] => [[c]]
  | c1 :: c2 :: rest =>
    if c1 = a ∧ c2 = b then [] :: split2 a b rest
    else
      match split2 a b (c2 :: rest) with
      | [] => [[c1]]
      | p :: ps => (c1 :: p) :: ps

/-- Python `sep.join(pieces)`. -/
def joinSep (sep : List Char) : List (List Char) → List Char
  | [] => []
  | [x] => x
  | x :: y :: rest => x ++ sep ++ joinSep sep (y :: rest)

/-- Does `pat` occur at the start of `l`? -/
def startsWith : List Char → List Char → Bool
  | [], _ => true
  | _ :: _, [] => false
  | p :: ps, c :: cs => p == c && startsWith ps cs

/-- Does `pat` occur anywhere in `l` (as a contiguous substring)? -/
def containsSub (pat : List Char) : List Char → Bool
  | [] => startsWith pat []
  | c :: rest => startsWith pat (c :: rest) || containsSub pat rest

/-- Worker for `stripTags`. The second argument holds, reversed, the
characters from the last unclosed `<` onward (`none` when outside any
candidate tag). On `>` the buffered candidate is deleted when at least one
character sits between `<` and `>` (the regex `<[^>]+>` needs a non-empty
body); a bare `<>` is emitted literally. A candidate still open at the end
of the input is emitted literally, as the regex then has no match there. -/
def stripTagsGo : List Char → Option (List Char) → List Char
  | [], none => []
  | [], some buf => buf.reverse
  | c :: rest, none =>
    if c = '<' then stripTagsGo rest (some ['<'])
    else c :: stripTagsGo rest none
  | c :: rest, some buf =>
    if c = '>' then
      if buf = ['<'] then '<' :: '>' :: stripTagsGo rest none
      else stripTagsGo rest none
    else stripTagsGo rest (some (c :: buf))

/-- Python `re.sub(r'<[^>]+>', '', text)`: delete every substring that starts
with `<`, continues with one or more non-`>` characters and ends at the next
`>`. -/
def stripTags (l : List Char) : List Char := stripTagsGo l none

/-- Does the tag pattern `<[^>]+>` match at position `i` of `t`? That is:
`t.drop i` starts with `<`, at least one non-`>` character follows, and a
`>` occurs after that run. -/
def tagAt (t : List Char) (i : Nat) : Bool :=
  match t.drop i with
  | '<' :: rest =>
    decide (rest.takeWhile (fun c => c ≠ '>') ≠ []) &&
    decide (rest.dropWhile (fun c => c ≠ '>') ≠ [])
  | _ => false

/-- Does the tag pattern `<[^>]+>` match anywhere in `t`? -/
def containsTag (t : List Char) : Bool := (List.range t.length).any (tagAt t)

/-- Anchored match of one timestamp group `\d{2}:\d{2}:\d{2}[,.]\d{3}` at the
head of the input; returns the 12 matched characters and the rest. -/
def parseTS : List Char → Option (List Char × List Char)
  | h1 :: h2 :: c1 :: m1 :: m2 :: c2 :: s1 :: s2 :: sep :: d1 :: d2 :: d3 :: rest =>
    if h1.isDigit && h2.isDigit && c1 == ':' && m1.isDigit && m2.isDigit && c2 == ':' &&
       s1.isDigit && s2.isDigit && (sep == ',' || sep == '.') &&
       d1.isDigit && d2.isDigit && d3.isDigit
    then some ([h1, h2, c1, m1, m2, c2, s1, s2, sep, d1, d2, d3], rest)
    else none
  | _ => none

/-- Anchored match of the whole `time_pattern` regex at the head of the input:
first group, then `\s*`, the literal arrow `-->`, `\s*`, and the second group.
Returns the two captured groups. (`\s*` before a literal `-` and before a
digit is deterministic, so greedy matching is plain longest-run skipping.) -/
def tryMatchAt (l : List Char) : Option (List Char × List Char) :=
  match parseTS l with
  | none => none
  | some (g1, r1) =>
    match r1.dropWhile pyIsSpace with
    | '-' :: '-' :: '>' :: r3 =>
      match parseTS (r3.dropWhile pyIsSpace) with
      | none => none
      | some (g2, _) => some (g1, g2)
    | _ => none

/-- Python `time_pattern.search(line)`: try each start position left to
right, return the groups of the leftmost match. -/
def searchTime : List Char → Option (List Char × List Char)
  | [] => none
  | c :: rest =>
    match tryMatchAt (c :: rest) with
    | some g => some g
    | none => searchTime rest

/-- The loop at `srt_parser.py:31-37`: scan the block's lines in order for
the first one on which `time_pattern.search` succeeds; everything after that
line is the text. -/
def findTimeInLines : List (List Char) → Option (List Char × List Char × List (List Char))
  | [] => none
  | l :: ls =>
    match searchTime l with
    | some (g1, g2) => some (g1, g2, ls)
    | none => findTimeInLines ls

/-- The text cleanup at `srt_parser.py:46-49`:
`re.sub(r'<[^>]+>', '', full_text).strip()` followed by
`.replace('- ', '').strip()`. -/
def cleanupText (t : List Char) : List Char :=
  pyStrip (replace2 '-' ' ' [] (pyStrip (stripTags t)))

/-- One parsed subtitle: the dictionary `{'start': ..., 'end': ..., 'text': ...}`. -/
structure SubtitleEntry where
  start : List Char
  endTime : List Char
  text : List Char
  deriving DecidableEq

/-- The per-block logic of the loop body (`srt_parser.py:20-56`) as an optional
result: `some entry` when the block appends an entry, `none` when the block
is skipped (fewer than 3 lines, no timestamp line, no text lines after it,
or text that cleans to empty). -/
def parseBlock (block : List Char) : Option SubtitleEntry :=
  let lines := split1 '\n' (pyStrip block)
  if 3 ≤ lines.length then
    match findTimeInLines lines with
    | some (g1, g2, textLines) =>
      if textLines ≠ [] then
        let clean := cleanupText (joinSep [' '] textLines)
        if clean ≠ [] then
          some { start := replace1 '.' ',' g1, endTime := replace1 '.' ',' g2, text := clean }
        else none
      else none
    | none => none
  else none

/-- The loop body of `for block in blocks` exactly as written: conditionally
append one entry to the accumulator `parsed_subs`. -/
def parseStep (acc : List SubtitleEntry) (block : List Char) : List SubtitleEntry :=
  let lines := split1 '\n' (pyStrip block)
  if 3 ≤ lines.length then
    match findTimeInLines lines with
    | some (g1, g2, textLines) =>
      if textLines ≠ [] then
        let clean := cleanupText (joinSep [' '] textLines)
        if clean ≠ [] then
          acc ++ [{ start := replace1 '.' ',' g1, endTime := replace1 '.' ',' g2, text := clean }]
        else acc
      else acc
    | none => acc
  else acc

/-- Line-ending normalization (`srt_parser.py:9`):
`srt_content.replace('\r\n', '\n').replace('\r', '\n')`. -/
def normEol (s : List Char) : List Char :=
  replace1 '\r' '\n' (replace2 '\r' '\n' ['\n'] s)

/-- The block list (`srt_parser.py:12`): normalize, strip the whole document,
split on double newlines. -/
def blocksOf (s : List Char) : List (List Char) :=
  split2 '\n' '\n' (pyStrip (normEol s))

/-- The function `parse_srt` (`srt_parser.py:3-58`): run the block loop over the block
list, starting from the empty accumulator. -/
def parse_srt (srt_content : List Char) : List SubtitleEntry :=
  (blocksOf srt_content).foldl parseStep []

/-- The exact shape `HH:MM:SS,mmm`: twelve characters, digits in the clock
and millisecond positions, colons and a comma as separators. -/
def tsShape : List Char → Bool
  | [h1, h2, c1, m1, m2, c2, s1, s2, sep, d1, d2, d3] =>
    h1.isDigit && h2.isDigit && c1 == ':' && m1.isDigit && m2.isDigit && c2 == ':' &&
    s1.isDigit && s2.isDigit && sep == ',' && d1.isDigit && d2.isDigit && d3.isDigit
  | _ => false

/-- The loop body appends exactly the per-block result. -/
theorem parseStep_eq (acc : List SubtitleEntry) (b : List Char) :
    parseStep acc b = acc ++ (parseBlock b).toList := by
  simp only [parseStep, parseBlock]
  split
  · split
    · split
      · split <;> simp
      · simp
    · simp
  · simp

/-- The imperative accumulation over the blocks is `filterMap` of the
per-block result. -/
theorem foldl_parseStep (bs : List (List Char)) :
    ∀ acc, bs.foldl parseStep acc = acc ++ bs.filterMap parseBlock := by
  induction bs with
  | nil => simp
  | cons b bs ih =>
    intro acc
    simp only [List.foldl_cons, List.filterMap_cons]
    rw [parseStep_eq]
    cases h : parseBlock b <;> simp [ih]

/-- The function `parse_srt` keeps, in block order, exactly the blocks whose per-block
parse produces an entry. -/
theorem parse_srt_eq_filterMap (s : List Char) :
    parse_srt s = (blocksOf s).filterMap parseBlock := by
  unfold parse_srt
  rw [foldl_parseStep]
  simp

/-- Anatomy of a produced entry: it comes from the timestamp-line scan of the
block, the two groups give `start`/`end` after the dot-to-comma
normalization, the text is the cleanup of the joined remaining lines, and it
is non-empty. -/
theorem parseBlock_some {b : List Char} {e : SubtitleEntry} (h : parseBlock b = some e) :
    ∃ g1 g2 tl, findTimeInLines (split1 '\n' (pyStrip b)) = some (g1, g2, tl) ∧
      e.start = replace1 '.' ',' g1 ∧ e.endTime = replace1 '.' ',' g2 ∧
      e.text = cleanupText (joinSep [' '] tl) ∧ e.text ≠ [] := by
  simp only [parseBlock] at h
  split at h
  · split at h
    · next g1 g2 tl heq =>
      split at h
      · split at h
        · next hclean =>
          cases h
          exact ⟨g1, g2, tl, heq, rfl, rfl, rfl, hclean⟩
        · exact absurd h (by simp)
      · exact absurd h (by simp)
    · exact absurd h (by simp)
  · exact absurd h (by simp)

/-- C1 counterexample: on the document `"00:00:01,000 --> 00:00:02,000\nHi there"`
(timestamp line plus one text line, no index line) `parse_srt` does not
return one entry — the block has only 2 lines, fails the `len(lines) >= 3`
gate and is skipped, so the output is empty. -/
theorem c1_missing_index_counterexample :
    (parse_srt ("00:00:01,000 --> 00:00:02,000\nHi there".data)).length ≠ 1 := by decide

/-- C1 amended: for the input document `"00:00:01,000 --> 00:00:02,000\nHi there"`
(a single block whose index line is missing, consisting of one timestamp line
and one text line) `parse_srt` returns no entries: the two-line block is
skipped by the three-line minimum. -/
theorem c1_missing_index_amended :
    parse_srt ("00:00:01,000 --> 00:00:02,000\nHi there".data) = [] := by decide

/-- C2: for every input string `parse_srt` returns a (possibly empty) list —
the total function below accumulates exactly the per-block results, every
malformed or unparseable block is skipped locally (it contributes `none` and
nothing is emitted for it), and the output is empty exactly when no block of
the input is parseable: the only failure signal is the empty list. -/
theorem c2_total_skip_malformed (s : List Char) :
    parse_srt s = (blocksOf s).filterMap parseBlock ∧
    (parse_srt s = [] ↔ ∀ b ∈ blocksOf s, parseBlock b = none) := by
  refine ⟨parse_srt_eq_filterMap s, ?_⟩
  rw [parse_srt_eq_filterMap s]
  exact List.filterMap_eq_nil_iff

/-- C2 witness: on a concrete unparseable document the equivalence applies
and yields the empty output. -/
theorem c2_total_skip_malformed_witness :
    parse_srt ("no subtitles here".data) = [] :=
  (c2_total_skip_malformed ("no subtitles here".data)).2.mpr (by decide)

/-- C4: every entry emitted by `parse_srt` has non-empty text — a block whose
text cleans to the empty string (for example `"<i></i>"`, only HTML tags) is
dropped and yields no entry. -/
theorem c4_text_nonempty :
    (∀ (s : List Char) (e : SubtitleEntry), e ∈ parse_srt s → e.text ≠ []) ∧
    parse_srt ("1\n00:00:01,000 --> 00:00:02,000\n<i></i>".data) = [] := by
  constructor
  · intro s e he
    rw [parse_srt_eq_filterMap] at he
    obtain ⟨b, _, hb⟩ := List.mem_filterMap.mp he
    obtain ⟨_, _, _, _, _, _, _, hne⟩ := parseBlock_some hb
    exact hne
  · decide

/-- C4 witness: the non-emptiness fact applied to the entry actually emitted
for a concrete document. -/
theorem c4_text_nonempty_witness :
    ({ start := "00:00:01,000".data, endTime := "00:00:04,000".data,
       text := "Hello world".data } : SubtitleEntry).text ≠ [] :=
  c4_text_nonempty.1 ("1\n00:00:01,000 --> 00:00:04,000\nHello world".data) _ (by decide)

/-- The groups produced by the line scan come from some successful search. -/
theorem findTimeInLines_some {lines : List (List Char)} {g1 g2 : List Char}
    {tl : List (List Char)} (h : findTimeInLines lines = some (g1, g2, tl)) :
    ∃ l, searchTime l = some (g1, g2) := by
  induction lines with
  | nil => simp [findTimeInLines] at h
  | cons l ls ih =>
    simp only [findTimeInLines] at h
    cases hs : searchTime l with
    | some g =>
      rw [hs] at h
      obtain ⟨a, b⟩ := g
      simp only [Option.some.injEq, Prod.mk.injEq] at h
      exact ⟨l, by rw [hs, h.1, h.2.1]⟩
    | none =>
      rw [hs] at h
      exact ih h

/-- A successful search comes from a successful anchored match at some
suffix. -/
theorem searchTime_some {l : List Char} {g1 g2 : List Char}
    (h : searchTime l = some (g1, g2)) : ∃ l1, tryMatchAt l1 = some (g1, g2) := by
  induction l with
  | nil => simp [searchTime] at h
  | cons c rest ih =>
    simp only [searchTime] at h
    cases hm : tryMatchAt (c :: rest) with
    | some g => rw [hm] at h; exact ⟨c :: rest, by rw [hm]; exact h⟩
    | none => rw [hm] at h; exact ih h

/-- Both groups of a successful anchored match are timestamp groups. -/
theorem tryMatchAt_some {l : List Char} {g1 g2 : List Char}
    (h : tryMatchAt l = some (g1, g2)) :
    (∃ r1, parseTS l = some (g1, r1)) ∧ ∃ l2 r2, parseTS l2 = some (g2, r2) := by
  unfold tryMatchAt at h
  split at h
  · exact absurd h (by simp)
  · next g1' r1 heq =>
    split at h
    · next r3 =>
      split at h
      · exact absurd h (by simp)
      · next g2' r2' heq2 =>
        simp only [Option.some.injEq, Prod.mk.injEq] at h
        exact ⟨⟨r1, by rw [heq, h.1]⟩, _, r2', by rw [heq2, h.2]⟩
    · exact absurd h (by simp)

/-- A digit character is not a punctuation character of the timestamp. -/
theorem isDigit_ne {c : Char} (h : c.isDigit = true) : c ≠ '.' ∧ c ≠ ',' ∧ c ≠ ':' := by
  refine ⟨?_, ?_, ?_⟩ <;> · intro hc; rw [hc] at h; exact absurd h (by decide)

/-- A timestamp group, after the dot-to-comma normalization of
`srt_parser.py:40-41`, has the exact shape `HH:MM:SS,mmm` and contains no
period. -/
theorem parseTS_shape {l g r : List Char} (h : parseTS l = some (g, r)) :
    tsShape (replace1 '.' ',' g) = true ∧ '.' ∉ replace1 '.' ',' g := by
  unfold parseTS at h
  split at h
  · next h1 h2 c1 m1 m2 c2 s1 s2 sep d1 d2 d3 rest =>
    split at h
    · next hc =>
      simp only [Bool.and_eq_true, Bool.or_eq_true, beq_iff_eq] at hc
      obtain ⟨⟨⟨⟨⟨⟨⟨⟨⟨⟨⟨hd1, hd2⟩, hc1⟩, hd3⟩, hd4⟩, hc2⟩, hd5⟩, hd6⟩, hsep⟩, hd7⟩, hd8⟩, hd9⟩ := hc
      simp only [Option.some.injEq, Prod.mk.injEq] at h
      obtain ⟨hg, -⟩ := h
      subst hg hc1 hc2
      have e1 := (isDigit_ne hd1).1
      have e2 := (isDigit_ne hd2).1
      have e3 := (isDigit_ne hd3).1
      have e4 := (isDigit_ne hd4).1
      have e5 := (isDigit_ne hd5).1
      have e6 := (isDigit_ne hd6).1
      have e7 := (isDigit_ne hd7).1
      have e8 := (isDigit_ne hd8).1
      have e9 := (isDigit_ne hd9).1
      cases hsep with
      | inl hs =>
        subst hs
        simp [replace1, tsShape, e1, e2, e3, e4, e5, e6, e7, e8, e9,
          Ne.symm e1, Ne.symm e2, Ne.symm e3, Ne.symm e4, Ne.symm e5,
          Ne.symm e6, Ne.symm e7, Ne.symm e8, Ne.symm e9,
          hd1, hd2, hd3, hd4, hd5, hd6, hd7, hd8, hd9]
      | inr hs =>
        subst hs
        simp [replace1, tsShape, e1, e2, e3, e4, e5, e6, e7, e8, e9,
          Ne.symm e1, Ne.symm e2, Ne.symm e3, Ne.symm e4, Ne.symm e5,
          Ne.symm e6, Ne.symm e7, Ne.symm e8, Ne.symm e9,
          hd1, hd2, hd3, hd4, hd5, hd6, hd7, hd8, hd9]
    · exact absurd h (by simp)
  · exact absurd h (by simp)

/-- C3: every entry `parse_srt` emits has `start` and `end` of the exact
form `HH:MM:SS,mmm` — comma as millisecond separator — and in particular no
`.` ever appears in an emitted timestamp field, even when the source block
used `.`. -/
theorem c3_timestamp_shape (s : List Char) (e : SubtitleEntry) (he : e ∈ parse_srt s) :
    tsShape e.start = true ∧ tsShape e.endTime = true ∧
    '.' ∉ e.start ∧ '.' ∉ e.endTime := by
  rw [parse_srt_eq_filterMap] at he
  obtain ⟨b, _, hb⟩ := List.mem_filterMap.mp he
  obtain ⟨g1, g2, tl, hfind, hstart, hend, -, -⟩ := parseBlock_some hb
  obtain ⟨l, hsearch⟩ := findTimeInLines_some hfind
  obtain ⟨l1, hmatch⟩ := searchTime_some hsearch
  obtain ⟨⟨r1, hts1⟩, l2, r2, hts2⟩ := tryMatchAt_some hmatch
  obtain ⟨sh1, nd1⟩ := parseTS_shape hts1
  obtain ⟨sh2, nd2⟩ := parseTS_shape hts2
  rw [hstart, hend]
  exact ⟨sh1, sh2, nd1, nd2⟩

/-- C3 witness: the invariant applied to the entry emitted for a concrete
block that uses `.` as millisecond separator. -/
theorem c3_timestamp_shape_witness :
    tsShape ({ start := "00:00:01,000".data, endTime := "00:00:04,000".data,
               text := "Hi".data } : SubtitleEntry).start = true ∧
    tsShape ({ start := "00:00:01,000".data, endTime := "00:00:04,000".data,
               text := "Hi".data } : SubtitleEntry).endTime = true ∧
    '.' ∉ ({ start := "00:00:01,000".data, endTime := "00:00:04,000".data,
             text := "Hi".data } : SubtitleEntry).start ∧
    '.' ∉ ({ start := "00:00:01,000".data, endTime := "00:00:04,000".data,
             text := "Hi".data } : SubtitleEntry).endTime :=
  c3_timestamp_shape ("1\n00:00:01.000 --> 00:00:04.000\nHi".data) _ (by decide)

/-- C6: inside a block the timestamp line is chosen by a first-match scan:
if every line of `pre` fails `time_pattern.search` and `l` succeeds with
groups `g1`, `g2`, the scan picks `l`, the lines after `l` become the text
content and the lines of `pre` are discarded; if no line matches, the scan
fails and the block is skipped by `parseBlock`. -/
theorem c6_first_match_scan :
    (∀ (pre : List (List Char)) (l : List Char) (post : List (List Char)) (g1 g2 : List Char),
      (∀ x ∈ pre, searchTime x = none) → searchTime l = some (g1, g2) →
      findTimeInLines (pre ++ l :: post) = some (g1, g2, post)) ∧
    (∀ lines : List (List Char), (∀ x ∈ lines, searchTime x = none) →
      findTimeInLines lines = none) ∧
    (∀ block : List Char, findTimeInLines (split1 '\n' (pyStrip block)) = none →
      parseBlock block = none) := by
  refine ⟨?_, ?_, ?_⟩
  · intro pre l post g1 g2 hpre hl
    induction pre with
    | nil => simp [findTimeInLines, hl]
    | cons p ps ih =>
      have hp : searchTime p = none := hpre p (by simp)
      simp only [List.cons_append, findTimeInLines, hp]
      exact ih fun x hx => hpre x (by simp [hx])
  · intro lines h
    induction lines with
    | nil => rfl
    | cons l ls ih =>
      have hl : searchTime l = none := h l (by simp)
      simp only [findTimeInLines, hl]
      exact ih fun x hx => h x (by simp [hx])
  · intro block h
    simp only [parseBlock, h]
    split <;> rfl

/-- C6 witness: the scan applied to the lines of a concrete block whose
first line is an index and whose second line is the timestamp line. -/
theorem c6_first_match_scan_witness :
    findTimeInLines ["1".data, "00:00:01,000 --> 00:00:02,000".data, "Hi".data] =
      some ("00:00:01,000".data, "00:00:02,000".data, ["Hi".data]) :=
  c6_first_match_scan.1 ["1".data] ("00:00:01,000 --> 00:00:02,000".data) ["Hi".data]
    ("00:00:01,000".data) ("00:00:02,000".data) (by decide) (by decide)

/-- C7: the cleanup removes every occurrence of the two-character sequence
dash-space, not only at line starts: for the sole text line
`"- Hello- there"` (one leading occurrence, one mid-text occurrence) the
emitted text is `"Hellothere"`. -/
theorem c7_dash_space_removed_everywhere :
    parse_srt ("1\n00:00:01,000 --> 00:00:02,000\n- Hello- there".data) =
      [{ start := "00:00:01,000".data, endTime := "00:00:02,000".data,
         text := "Hellothere".data }] := by decide

/-- A string without two consecutive newlines is a single block: `split2`
returns it unsplit. -/
theorem split2_eq_single {a b : Char} :
    ∀ s, containsSub [a, b] s = false → split2 a b s = [s] := by
  intro s h
  induction s with
  | nil => rfl
  | cons c rest ih =>
    simp only [containsSub, Bool.or_eq_false_iff] at h
    obtain ⟨h1, h2⟩ := h
    cases rest with
    | nil => rfl
    | cons c2 r2 =>
      have hne : ¬(c = a ∧ c2 = b) := by
        rintro ⟨rfl, rfl⟩
        simp [startsWith] at h1
      rw [split2, if_neg hne, ih h2]

/-- C10: a whitespace-only line is not a block separator — blocks are split
only on two consecutive literal newline characters. A document without the
two-newline sequence is a single block; a whitespace-only line counts toward
the three-line minimum (the same block without it is skipped); and the
content of a whitespace-only line is joined into the entry text like any
other line. -/
theorem c10_whitespace_line_not_separator :
    (∀ s : List Char, containsSub ['\n', '\n'] s = false → split2 '\n' '\n' s = [s]) ∧
    parse_srt ("00:00:01,000 --> 00:00:02,000\n \nhi".data) =
      [{ start := "00:00:01,000".data, endTime := "00:00:02,000".data,
         text := "hi".data }] ∧
    parse_srt ("00:00:01,000 --> 00:00:02,000\nhi".data) = [] ∧
    parse_srt ("1\n00:00:01,000 --> 00:00:02,000\na\n \nb".data) =
      [{ start := "00:00:01,000".data, endTime := "00:00:02,000".data,
         text := "a   b".data }] :=
  ⟨fun s h => split2_eq_single s h, by decide, by decide, by decide⟩

/-- C10 witness: the single-block fact applied to a document whose only
newline is followed by a space. -/
theorem c10_whitespace_line_not_separator_witness :
    split2 '\n' '\n' ("a\n b".data) = [("a\n b".data)] :=
  c10_whitespace_line_not_separator.1 ("a\n b".data) (by decide)

/-- After replacing every `a` by `b ≠ a`, no `a` remains. -/
theorem replace1_not_mem {a b : Char} (hab : b ≠ a) : ∀ l, a ∉ replace1 a b l := by
  intro l
  induction l with
  | nil => simp [replace1]
  | cons c rest ih =>
    simp only [replace1, List.mem_cons, not_or]
    refine ⟨?_, ih⟩
    split
    · exact fun h => hab h.symm
    · next hc => exact fun h => hc h.symm

/-- Replacing a single character that does not occur is the identity. -/
theorem replace1_id_of_not_mem {a b : Char} : ∀ l, a ∉ l → replace1 a b l = l := by
  intro l h
  induction l with
  | nil => rfl
  | cons c rest ih =>
    simp only [List.mem_cons, not_or] at h
    have hca : ¬c = a := fun hc => h.1 hc.symm
    simp only [replace1, if_neg hca]
    rw [ih h.2]

/-- Replacing a two-character pattern whose first character does not occur is
the identity. -/
theorem replace2_id_fst {a b : Char} {r : List Char} : ∀ l, a ∉ l → replace2 a b r l = l := by
  intro l h
  induction l with
  | nil => rfl
  | cons c rest ih =>
    simp only [List.mem_cons, not_or] at h
    cases rest with
    | nil => rfl
    | cons c2 r2 =>
      rw [replace2, if_neg (fun hc => h.1 hc.1.symm)]
      rw [ih h.2]

/-- Replacing a two-character pattern whose second character does not occur is
the identity. -/
theorem replace2_id_snd {a b : Char} {r : List Char} : ∀ l, b ∉ l → replace2 a b r l = l := by
  intro l h
  induction l with
  | nil => rfl
  | cons c rest ih =>
    cases rest with
    | nil => rfl
    | cons c2 r2 =>
      simp only [List.mem_cons, not_or] at h
      have h2 : ¬c2 = b := fun hc => h.2.1 hc.symm
      rw [replace2, if_neg (fun hc => h2 hc.2)]
      congr 1
      exact ih (by simp only [List.mem_cons, not_or]; exact ⟨h.2.1, h.2.2⟩)

/-- Line-ending normalization leaves no carriage return behind. -/
theorem normEol_no_cr (s : List Char) : '\r' ∉ normEol s :=
  replace1_not_mem (by decide) _

/-- On input without carriage returns, line-ending normalization is the
identity. -/
theorem normEol_id {s : List Char} (h : '\r' ∉ s) : normEol s = s := by
  unfold normEol
  rw [replace2_id_fst s h, replace1_id_of_not_mem s h]

/-- Line-ending normalization is idempotent. -/
theorem normEol_idem (s : List Char) : normEol (normEol s) = normEol s :=
  normEol_id (normEol_no_cr s)

/-- Inputs with the same normalization parse identically. -/
theorem parse_srt_eq_of_normEol {s1 s2 : List Char} (h : normEol s1 = normEol s2) :
    parse_srt s1 = parse_srt s2 := by
  unfold parse_srt blocksOf
  rw [h]

/-- Replacement of a single character distributes over append. -/
theorem replace1_append (a b : Char) :
    ∀ l t, replace1 a b (l ++ t) = replace1 a b l ++ replace1 a b t := by
  intro l t
  induction l with
  | nil => rfl
  | cons c l' ih =>
    simp only [List.cons_append, replace1]
    exact congrArg _ ih

/-- Two-character replacement skips over a pattern-free left part. -/
theorem replace2_append_left {a b : Char} {r : List Char} :
    ∀ l t, a ∉ l → replace2 a b r (l ++ t) = l ++ replace2 a b r t := by
  intro l
  induction l with
  | nil => intro t _; rfl
  | cons c l' ih =>
    intro t h
    simp only [List.mem_cons, not_or] at h
    have hca : ¬c = a := fun hc => h.1 hc.symm
    cases l' with
    | nil =>
      cases t with
      | nil => rfl
      | cons c2 t2 =>
        rw [show ([c] ++ c2 :: t2 : List Char) = c :: c2 :: t2 from rfl]
        rw [replace2, if_neg (fun hc => hca hc.1)]
        rfl
    | cons c2 l2 =>
      rw [show ((c :: c2 :: l2) ++ t : List Char) = c :: c2 :: (l2 ++ t) from rfl]
      rw [replace2, if_neg (fun hc => hca hc.1)]
      rw [show (c2 :: (l2 ++ t) : List Char) = (c2 :: l2) ++ t from rfl]
      rw [ih t h.2]
      rfl

/-- A character in neither the separator nor any piece is not in the join. -/
theorem not_mem_joinSep {c : Char} {sep : List Char} :
    ∀ ls, c ∉ sep → (∀ l ∈ ls, c ∉ l) → c ∉ joinSep sep ls := by
  intro ls hsep h
  induction ls with
  | nil => simp [joinSep]
  | cons x ls ih =>
    cases ls with
    | nil => exact h x (by simp)
    | cons y r =>
      simp only [joinSep, List.append_assoc, List.mem_append, not_or]
      exact ⟨h x (by simp), hsep, ih fun l hl => h l (by simp [hl])⟩

/-- Normalizing a CRLF-joined document gives the LF-joined document. -/
theorem normEol_joinSep_crlf {lines : List (List Char)}
    (h : ∀ l ∈ lines, '\r' ∉ l) :
    normEol (joinSep ['\r', '\n'] lines) = joinSep ['\n'] lines := by
  have step1 : replace2 '\r' '\n' ['\n'] (joinSep ['\r', '\n'] lines) =
      joinSep ['\n'] lines := by
    induction lines with
    | nil => rfl
    | cons x ls ih =>
      cases ls with
      | nil => exact replace2_id_fst x (h x (by simp))
      | cons y r =>
        rw [show joinSep ['\r', '\n'] (x :: y :: r) =
            x ++ (['\r', '\n'] ++ joinSep ['\r', '\n'] (y :: r)) from by
          simp [joinSep, List.append_assoc]]
        rw [replace2_append_left _ _ (h x (by simp))]
        rw [show (['\r', '\n'] ++ joinSep ['\r', '\n'] (y :: r) : List Char) =
          '\r' :: '\n' :: joinSep ['\r', '\n'] (y :: r) from rfl]
        rw [replace2, if_pos ⟨rfl, rfl⟩]
        rw [ih fun l hl => h l (by simp [hl])]
        simp [joinSep, List.append_assoc]
  unfold normEol
  rw [step1]
  exact replace1_id_of_not_mem _ (not_mem_joinSep lines (by decide) h)

/-- Normalizing a CR-joined document gives the LF-joined document, provided
the lines themselves contain no line-ending characters. -/
theorem normEol_joinSep_cr {lines : List (List Char)}
    (h : ∀ l ∈ lines, '\r' ∉ l ∧ '\n' ∉ l) :
    normEol (joinSep ['\r'] lines) = joinSep ['\n'] lines := by
  have hnolf : '\n' ∉ joinSep ['\r'] lines :=
    not_mem_joinSep lines (by decide) fun l hl => (h l hl).2
  have step2 : replace1 '\r' '\n' (joinSep ['\r'] lines) = joinSep ['\n'] lines := by
    induction lines with
    | nil => rfl
    | cons x ls ih =>
      cases ls with
      | nil => exact replace1_id_of_not_mem x (h x (by simp)).1
      | cons y r =>
        rw [show joinSep ['\r'] (x :: y :: r) =
            x ++ (['\r'] ++ joinSep ['\r'] (y :: r)) from by
          simp [joinSep, List.append_assoc]]
        rw [replace1_append, replace1_append]
        rw [replace1_id_of_not_mem x (h x (by simp)).1]
        rw [ih (fun l hl => h l (by simp [hl]))
          (not_mem_joinSep (y :: r) (by decide) fun l hl => (h l (by simp [hl])).2)]
        simp [joinSep, replace1, List.append_assoc]
  unfold normEol
  rw [replace2_id_snd _ hnolf, step2]

/-- C5: `parse_srt` is line-ending agnostic. Parsing a document equals
parsing its line-ending normalization (all CRLF and CR rewritten to LF), the
normalization is idempotent, and a document given as lines joined by CRLF or
by CR parses exactly as the same lines joined by LF. -/
theorem c5_line_ending_invariance :
    (∀ s : List Char, parse_srt (normEol s) = parse_srt s ∧
      normEol (normEol s) = normEol s) ∧
    (∀ lines : List (List Char), (∀ l ∈ lines, '\r' ∉ l ∧ '\n' ∉ l) →
      parse_srt (joinSep ['\r', '\n'] lines) = parse_srt (joinSep ['\n'] lines) ∧
      parse_srt (joinSep ['\r'] lines) = parse_srt (joinSep ['\n'] lines)) := by
  constructor
  · intro s
    exact ⟨parse_srt_eq_of_normEol (normEol_idem s), normEol_idem s⟩
  · intro lines h
    have hlf : normEol (joinSep ['\n'] lines) = joinSep ['\n'] lines :=
      normEol_id (not_mem_joinSep lines (by decide) fun l hl => (h l hl).1)
    constructor
    · exact parse_srt_eq_of_normEol (by
        rw [hlf, normEol_joinSep_crlf fun l hl => (h l hl).1])
    · exact parse_srt_eq_of_normEol (by rw [hlf, normEol_joinSep_cr h])

/-- C5 witness: the invariance applied to a concrete document in its CRLF
and LF renderings. -/
theorem c5_line_ending_invariance_witness :
    parse_srt (normEol ("1\r\n00:00:01,000 --> 00:00:04,000\r\nHi".data)) =
      parse_srt ("1\r\n00:00:01,000 --> 00:00:04,000\r\nHi".data) ∧
    parse_srt (joinSep ['\r', '\n']
        ["1".data, "00:00:01,000 --> 00:00:04,000".data, "Hi".data]) =
      parse_srt (joinSep ['\n']
        ["1".data, "00:00:01,000 --> 00:00:04,000".data, "Hi".data]) :=
  ⟨(c5_line_ending_invariance.1 _).1,
   (c5_line_ending_invariance.2
      ["1".data, "00:00:01,000 --> 00:00:04,000".data, "Hi".data] (by decide)).1⟩

/-- The tag test at position `i + 1` of `c :: t` is the tag test at `i` of `t`. -/
theorem tagAt_cons_succ (c : Char) (t : List Char) (i : Nat) :
    tagAt (c :: t) (i + 1) = tagAt t i := by
  simp only [tagAt, List.drop_succ_cons]

/-- If no tag occurs in `c :: t`, none occurs in `t`. -/
theorem containsTag_cons_false {c : Char} {t : List Char}
    (h : containsTag (c :: t) = false) : containsTag t = false := by
  rw [containsTag, List.any_eq_false] at h ⊢
  intro i hi
  rw [← tagAt_cons_succ c t i]
  refine h (i + 1) ?_
  rw [List.mem_range] at hi ⊢
  simp only [List.length_cons]
  omega

/-- If no tag occurs in `l ++ t`, none occurs in `t`. -/
theorem containsTag_append_false_left {l t : List Char}
    (h : containsTag (l ++ t) = false) : containsTag t = false := by
  induction l with
  | nil => exact h
  | cons c l' ih => exact ih (containsTag_cons_false h)

/-- Taking while the predicate holds walks over a fully satisfying left part. -/
theorem takeWhile_append_all {p : Char → Bool} {l : List Char}
    (h : ∀ c ∈ l, p c = true) (t : List Char) :
    List.takeWhile p (l ++ t) = l ++ List.takeWhile p t := by
  induction l with
  | nil => rfl
  | cons c l' ih =>
    have hc := h c (by simp)
    have ih' := ih fun x hx => h x (by simp [hx])
    simp [List.takeWhile_cons, hc, ih']

/-- Dropping while the predicate holds drops a fully satisfying left part. -/
theorem dropWhile_append_all {p : Char → Bool} {l : List Char}
    (h : ∀ c ∈ l, p c = true) (t : List Char) :
    List.dropWhile p (l ++ t) = List.dropWhile p t := by
  induction l with
  | nil => rfl
  | cons c l' ih =>
    simp only [List.cons_append, List.dropWhile_cons, h c (by simp)]
    exact ih fun x hx => h x (by simp [hx])

/-- A `<`, a non-empty run of non-`>` characters, and a closing `>` is a tag
match at position 0. -/
theorem tagAt_zero_true {m r : List Char} (hm : m ≠ [])
    (hall : ∀ c ∈ m, c ≠ '>') : tagAt ('<' :: (m ++ '>' :: r)) 0 = true := by
  have hsat : ∀ c ∈ m, (fun c => decide (c ≠ '>')) c = true := by
    intro c hc
    simp only [decide_eq_true_eq]
    exact hall c hc
  show tagAt ('<' :: (m ++ '>' :: r)) 0 = true
  simp only [tagAt, List.drop_zero]
  rw [takeWhile_append_all hsat, dropWhile_append_all hsat]
  simp [List.takeWhile_cons, List.dropWhile_cons, hm]

/-- A tag match at a real position means the tag test succeeds. -/
theorem containsTag_true_of_tagAt {t : List Char} {i : Nat}
    (hi : i < t.length) (h : tagAt t i = true) : containsTag t = true := by
  rw [containsTag, List.any_eq_true]
  exact ⟨i, List.mem_range.mpr hi, h⟩

/-- The tag stripper is the identity on tag-free input, in both machine
states: outside a candidate, and inside a candidate whose buffered body has
no `>`. -/
theorem stripTagsGo_id : ∀ t : List Char,
    (containsTag t = false → stripTagsGo t none = t) ∧
    (∀ m : List Char, (∀ c ∈ m, c ≠ '>') →
      containsTag ('<' :: (m.reverse ++ t)) = false →
      stripTagsGo t (some (m ++ ['<'])) = '<' :: (m.reverse ++ t)) := by
  intro t
  induction t with
  | nil =>
    refine ⟨fun _ => rfl, fun m _ _ => ?_⟩
    simp [stripTagsGo, List.reverse_append]
  | cons c rest ih =>
    constructor
    · intro h
      by_cases hc : c = '<'
      · subst hc
        show stripTagsGo rest (some ['<']) = '<' :: rest
        have := ih.2 [] (by simp) (by simpa using h)
        simpa using this
      · simp only [stripTagsGo, if_neg hc]
        rw [ih.1 (containsTag_cons_false h)]
    · intro m hm hc
      by_cases hgt : c = '>'
      · subst hgt
        cases m with
        | nil =>
          show stripTagsGo ('>' :: rest) (some ['<']) = _
          have h2 : containsTag ('>' :: rest) = false := by
            simpa using containsTag_cons_false hc
          have h1 : containsTag rest = false := containsTag_cons_false h2
          simp [stripTagsGo, ih.1 h1]
        | cons a m' =>
          exfalso
          have hrev : (a :: m').reverse ≠ [] := by simp
          have hall : ∀ x ∈ (a :: m').reverse, x ≠ '>' := by
            intro x hx
            exact hm x (List.mem_reverse.mp hx)
          have htag := tagAt_zero_true hrev hall (r := rest)
          have hlen : 0 < ('<' :: ((a :: m').reverse ++ '>' :: rest)).length := by simp
          have := containsTag_true_of_tagAt hlen htag
          rw [hc] at this
          exact Bool.false_ne_true this
      · show stripTagsGo (c :: rest) (some (m ++ ['<'])) = _
        have hstep : stripTagsGo (c :: rest) (some (m ++ ['<'])) =
            stripTagsGo rest (some (c :: (m ++ ['<']))) := by
          simp only [stripTagsGo, if_neg hgt]
        rw [hstep]
        have hc' : containsTag ('<' :: ((c :: m).reverse ++ rest)) = false := by
          have : (c :: m).reverse ++ rest = m.reverse ++ (c :: rest) := by
            simp [List.reverse_cons, List.append_assoc]
          rw [this]
          exact hc
        have := ih.2 (c :: m) (by
          intro x hx
          rcases List.mem_cons.mp hx with h1 | h2
          · exact h1 ▸ hgt
          · exact hm x h2) hc'
        rw [show (c :: (m ++ ['<']) : List Char) = (c :: m) ++ ['<'] from rfl]
        rw [this]
        simp [List.reverse_cons, List.append_assoc]

/-- The substitution `re.sub(r'<[^>]+>', '', t)` is the identity when the tag pattern matches
nowhere in `t`. -/
theorem stripTags_id {t : List Char} (h : containsTag t = false) : stripTags t = t :=
  (stripTagsGo_id t).1 h

/-- A match at the start survives extending the input on the right. -/
theorem startsWith_extend {pat : List Char} :
    ∀ {l : List Char}, startsWith pat l = true → ∀ t, startsWith pat (l ++ t) = true := by
  induction pat with
  | nil => intro l _ t; rfl
  | cons p ps ih =>
    intro l h t
    cases l with
    | nil => simp [startsWith] at h
    | cons c cs =>
      simp only [startsWith, Bool.and_eq_true] at h
      simp only [List.cons_append, startsWith, Bool.and_eq_true]
      exact ⟨h.1, ih h.2 t⟩

/-- No substring occurrence in `c :: t` means none in `t`. -/
theorem containsSub_cons_false {pat : List Char} {c : Char} {t : List Char}
    (h : containsSub pat (c :: t) = false) : containsSub pat t = false := by
  simp only [containsSub, Bool.or_eq_false_iff] at h
  exact h.2

/-- No substring occurrence in `l ++ t` means none in `t`. -/
theorem containsSub_append_left_false {pat l t : List Char}
    (h : containsSub pat (l ++ t) = false) : containsSub pat t = false := by
  induction l with
  | nil => exact h
  | cons c l' ih => exact ih (containsSub_cons_false h)

/-- No substring occurrence in `l ++ t` means none in `l`. -/
theorem containsSub_append_right_false {pat : List Char} :
    ∀ {l t : List Char}, containsSub pat (l ++ t) = false → containsSub pat l = false := by
  intro l
  induction l with
  | nil =>
    intro t h
    cases pat with
    | nil => exact absurd h (by cases t <;> simp [containsSub, startsWith])
    | cons p ps => rfl
  | cons c l' ih =>
    intro t h
    simp only [List.cons_append, containsSub, Bool.or_eq_false_iff] at h
    simp only [containsSub, Bool.or_eq_false_iff]
    refine ⟨?_, ih h.2⟩
    cases hs : startsWith pat (c :: l') with
    | false => rfl
    | true =>
      exfalso
      have hext : startsWith pat (c :: l'.append t) = true := startsWith_extend hs t
      rw [h.1] at hext
      exact Bool.false_ne_true hext

/-- Two-character replacement is the identity when the pattern occurs nowhere. -/
theorem replace2_id_of_not_sub {a b : Char} {r : List Char} :
    ∀ t, containsSub [a, b] t = false → replace2 a b r t = t := by
  intro t h
  induction t with
  | nil => rfl
  | cons c rest ih =>
    cases rest with
    | nil => rfl
    | cons c2 r2 =>
      simp only [containsSub, Bool.or_eq_false_iff] at h
      have hne : ¬(c = a ∧ c2 = b) := by
        rintro ⟨rfl, rfl⟩
        simp [startsWith] at h
      rw [replace2, if_neg hne, ih (by simp only [containsSub, Bool.or_eq_false_iff]; exact h.2)]

/-- Stripping only removes a whitespace head and tail: the stripped list is
a contiguous part of the original. -/
theorem pyStrip_decomp (l : List Char) : ∃ x z, l = x ++ pyStrip l ++ z := by
  refine ⟨List.takeWhile pyIsSpace l,
    ((List.dropWhile pyIsSpace l).reverse.takeWhile pyIsSpace).reverse, ?_⟩
  have hu : List.dropWhile pyIsSpace l =
      ((List.dropWhile pyIsSpace l).reverse.dropWhile pyIsSpace).reverse ++
      ((List.dropWhile pyIsSpace l).reverse.takeWhile pyIsSpace).reverse := by
    conv_lhs =>
      rw [← List.reverse_reverse (List.dropWhile pyIsSpace l),
        ← List.takeWhile_append_dropWhile (p := pyIsSpace)
          (l := (List.dropWhile pyIsSpace l).reverse)]
    rw [List.reverse_append]
  conv_lhs => rw [← List.takeWhile_append_dropWhile (p := pyIsSpace) (l := l), hu]
  rw [List.append_assoc]
  rfl

/-- Substring freedom is inherited by the stripped list. -/
theorem containsSub_pyStrip {pat l : List Char} (h : containsSub pat l = false) :
    containsSub pat (pyStrip l) = false := by
  obtain ⟨x, z, hd⟩ := pyStrip_decomp l
  rw [hd] at h
  exact containsSub_append_left_false (containsSub_append_right_false h)

/-- The drop scan keeps going past an all-dropped left part with something left. -/
theorem dropWhile_append_ne {p : Char → Bool} {l : List Char}
    (h : List.dropWhile p l ≠ []) (b : List Char) :
    List.dropWhile p (l ++ b) = List.dropWhile p l ++ b := by
  induction l with
  | nil => exact absurd rfl h
  | cons c l' ih =>
    by_cases hc : p c = true
    · have h' : List.dropWhile p l' ≠ [] := by
        simpa [List.dropWhile_cons, hc] using h
      simp [List.dropWhile_cons, hc, ih h']
    · simp [List.dropWhile_cons, hc]

/-- A non-empty `takeWhile` stays non-empty after appending. -/
theorem takeWhile_append_ne {p : Char → Bool} {l : List Char}
    (h : List.takeWhile p l ≠ []) (b : List Char) :
    List.takeWhile p (l ++ b) ≠ [] := by
  cases l with
  | nil => exact absurd rfl h
  | cons c l' =>
    by_cases hc : p c = true
    · simp [List.takeWhile_cons, hc]
    · exact absurd (by simp [List.takeWhile_cons, hc]) h

/-- A tag match survives appending on the right. -/
theorem tagAt_append {y b : List Char} {i : Nat} (h : tagAt y i = true) :
    tagAt (y ++ b) i = true := by
  have hi : i ≤ y.length := by
    by_contra hlt
    push_neg at hlt
    unfold tagAt at h
    rw [List.drop_eq_nil_of_le (le_of_lt hlt)] at h
    exact absurd h (by simp)
  unfold tagAt at h ⊢
  rw [List.drop_append_of_le_length hi]
  split at h
  · next rest heq =>
    rw [heq]
    rw [show (('<' :: rest : List Char) ++ b) = '<' :: (rest ++ b) from rfl]
    simp only [Bool.and_eq_true, decide_eq_true_eq] at h ⊢
    refine ⟨takeWhile_append_ne h.1 b, ?_⟩
    rw [dropWhile_append_ne h.2 b]
    intro hcontra
    exact h.2 (List.append_eq_nil.mp hcontra).1
  · exact absurd h (by simp)

/-- No tag occurrence in `y ++ b` means none in `y`. -/
theorem containsTag_append_false_right {y b : List Char}
    (h : containsTag (y ++ b) = false) : containsTag y = false := by
  rw [containsTag, List.any_eq_false] at h ⊢
  intro i hi ht
  have hmem : i ∈ List.range (y ++ b).length := by
    rw [List.mem_range] at hi ⊢
    rw [List.length_append]
    omega
  exact h i hmem (tagAt_append ht)

/-- Tag freedom is inherited by the stripped list. -/
theorem containsTag_pyStrip {l : List Char} (h : containsTag l = false) :
    containsTag (pyStrip l) = false := by
  obtain ⟨x, z, hd⟩ := pyStrip_decomp l
  rw [hd] at h
  exact containsTag_append_false_left (containsTag_append_false_right h)

/-- The drop scan is idempotent. -/
theorem dropWhile_idem {p : Char → Bool} : ∀ l : List Char,
    List.dropWhile p (List.dropWhile p l) = List.dropWhile p l := by
  intro l
  induction l with
  | nil => rfl
  | cons c l' ih =>
    by_cases hc : p c = true
    · simp [List.dropWhile_cons, hc, ih]
    · simp [List.dropWhile_cons, hc]

/-- The head surviving a `dropWhile` fails the predicate. -/
theorem head_dropWhile_false {p : Char → Bool} :
    ∀ {l : List Char} {c : Char} {rest : List Char},
      List.dropWhile p l = c :: rest → p c = false := by
  intro l
  induction l with
  | nil => intro c rest h; exact absurd h (by simp)
  | cons a l' ih =>
    intro c rest h
    by_cases ha : p a = true
    · rw [List.dropWhile_cons_of_pos ha] at h
      exact ih h
    · rw [List.dropWhile_cons_of_neg ha] at h
      injection h with h1 _
      subst h1
      exact Bool.eq_false_iff.mpr ha

/-- A list already stripped on both sides is a fixed point of `pyStrip`. -/
theorem pyStrip_eq_self_of {l : List Char}
    (h1 : List.dropWhile pyIsSpace l = l)
    (h2 : List.dropWhile pyIsSpace l.reverse = l.reverse) : pyStrip l = l := by
  unfold pyStrip
  rw [h1, h2, List.reverse_reverse]

/-- Python `str.strip()` is idempotent. -/
theorem pyStrip_idem (l : List Char) : pyStrip (pyStrip l) = pyStrip l := by
  have hps : pyStrip l =
      ((List.dropWhile pyIsSpace l).reverse.dropWhile pyIsSpace).reverse := rfl
  apply pyStrip_eq_self_of
  · cases hw : pyStrip l with
    | nil => simp [hw]
    | cons c rest =>
      have hu : List.dropWhile pyIsSpace l =
          ((List.dropWhile pyIsSpace l).reverse.dropWhile pyIsSpace).reverse ++
          ((List.dropWhile pyIsSpace l).reverse.takeWhile pyIsSpace).reverse := by
        conv_lhs =>
          rw [← List.reverse_reverse (List.dropWhile pyIsSpace l),
            ← List.takeWhile_append_dropWhile (p := pyIsSpace)
              (l := (List.dropWhile pyIsSpace l).reverse)]
        rw [List.reverse_append]
      rw [hps] at hw
      rw [hw] at hu
      have hhead : pyIsSpace c = false := by
        cases hd : List.dropWhile pyIsSpace l with
        | nil => rw [hd] at hu; exact absurd hu (by simp)
        | cons c0 u' =>
          have hp0 := head_dropWhile_false hd
          rw [hd] at hu
          have : c0 = c := by
            have := congrArg (fun x => x.head?) hu
            simpa using this
          rw [← this]
          exact hp0
      exact List.dropWhile_cons_of_neg (by simp [hhead])
  · rw [hps, List.reverse_reverse]
    exact dropWhile_idem _

/-- C8 counterexample: the block `"1\n00:00:01,000 --> 00:00:02,000\n  hi"`
has the single text line `"  hi"` — no HTML tag, no dash-space — whose
single-space join is `"  hi"`, yet the emitted text is the stripped `"hi"`,
not the joined text itself. -/
theorem c8_cleanup_counterexample :
    parse_srt ("1\n00:00:01,000 --> 00:00:02,000\n  hi".data) =
      [{ start := "00:00:01,000".data, endTime := "00:00:02,000".data,
         text := "hi".data }] ∧
    joinSep [' '] ["  hi".data] = "  hi".data ∧
    containsTag ("  hi".data) = false ∧
    containsSub ['-', ' '] ("  hi".data) = false ∧
    "hi".data ≠ "  hi".data := by
  refine ⟨by decide, by decide, by decide, by decide, by decide⟩

/-- C8 amended: for text lines whose single-space join contains no substring
matching the tag pattern and no dash-space substring, the cleanup pipeline
only trims outer whitespace: the emitted text is the joined text stripped of
leading and trailing whitespace, and nothing else changes. -/
theorem c8_cleanup_identity (tls : List (List Char))
    (h1 : containsTag (joinSep [' '] tls) = false)
    (h2 : containsSub ['-', ' '] (joinSep [' '] tls) = false) :
    cleanupText (joinSep [' '] tls) = pyStrip (joinSep [' '] tls) := by
  unfold cleanupText
  rw [stripTags_id h1]
  rw [replace2_id_of_not_sub _ (containsSub_pyStrip h2)]
  exact pyStrip_idem _

/-- C8 witness: the cleanup identity applied to concrete tag-free,
dash-free text lines. -/
theorem c8_cleanup_identity_witness :
    cleanupText (joinSep [' '] ["Hello".data, "world".data]) =
      pyStrip (joinSep [' '] ["Hello".data, "world".data]) :=
  c8_cleanup_identity ["Hello".data, "world".data] (by decide) (by decide)

/-- Dropping a front segment cannot lengthen a list. -/
theorem dropWhile_len_le (p : Char → Bool) (l : List Char) :
    (List.dropWhile p l).length ≤ l.length :=
  (List.dropWhile_suffix p).sublist.length_le

/-- A `dropWhile` result of full length dropped nothing. -/
theorem dropWhile_length_eq {p : Char → Bool} :
    ∀ {l : List Char}, (List.dropWhile p l).length = l.length → List.dropWhile p l = l := by
  intro l
  induction l with
  | nil => intro _; rfl
  | cons c l' ih =>
    intro h
    by_cases hc : p c = true
    · exfalso
      rw [List.dropWhile_cons_of_pos hc] at h
      have := dropWhile_len_le p l'
      simp only [List.length_cons] at h
      omega
    · exact List.dropWhile_cons_of_neg hc

/-- A `pyStrip` fixed point is a fixed point of both one-sided trims. -/
theorem pyStrip_eq_self_parts {b : List Char} (hb : pyStrip b = b) :
    List.dropWhile pyIsSpace b = b ∧
    List.dropWhile pyIsSpace b.reverse = b.reverse := by
  have hlen1 := dropWhile_len_le pyIsSpace b
  have hlen2 := dropWhile_len_le pyIsSpace (List.dropWhile pyIsSpace b).reverse
  have hlen : (pyStrip b).length =
      ((List.dropWhile pyIsSpace b).reverse.dropWhile pyIsSpace).length := by
    unfold pyStrip
    rw [List.length_reverse]
  rw [hb] at hlen
  rw [List.length_reverse] at hlen2
  have hfull : (List.dropWhile pyIsSpace b).length = b.length := by omega
  have h1 : List.dropWhile pyIsSpace b = b := dropWhile_length_eq hfull
  refine ⟨h1, ?_⟩
  have : pyStrip b = (b.reverse.dropWhile pyIsSpace).reverse := by
    unfold pyStrip
    rw [h1]
  rw [hb] at this
  have := congrArg List.reverse this
  rw [List.reverse_reverse] at this
  exact this.symm

/-- The head of a `dropWhile` fixed point fails the predicate. -/
theorem dropWhile_eq_self_head {p : Char → Bool} {c : Char} {rest : List Char}
    (h : List.dropWhile p (c :: rest) = c :: rest) : p c = false := by
  by_cases hc : p c = true
  · exfalso
    rw [List.dropWhile_cons_of_pos hc] at h
    have hle := dropWhile_len_le p rest
    have := congrArg List.length h
    simp only [List.length_cons] at this
    omega
  · exact Bool.eq_false_iff.mpr hc

/-- A non-empty `dropWhile` fixed point absorbs anything appended. -/
theorem dropWhile_append_self {p : Char → Bool} {l : List Char}
    (h : List.dropWhile p l = l) (hne : l ≠ []) (t : List Char) :
    List.dropWhile p (l ++ t) = l ++ t := by
  cases l with
  | nil => exact absurd rfl hne
  | cons c l' =>
    have hc := dropWhile_eq_self_head h
    rw [show ((c :: l') ++ t : List Char) = c :: (l' ++ t) from rfl]
    exact List.dropWhile_cons_of_neg (by simp [hc])

/-- Joining a non-empty first piece gives a non-empty join. -/
theorem joinSep_ne_nil {sep : List Char} {y : List Char} (hy : y ≠ []) :
    ∀ r, joinSep sep (y :: r) ≠ [] := by
  intro r
  cases r with
  | nil => exact hy
  | cons z r' =>
    show y ++ sep ++ joinSep sep (z :: r') ≠ []
    simp only [ne_eq, List.append_eq_nil]
    rintro ⟨⟨hy', -⟩, -⟩
    exact hy hy'

/-- A join of stripped non-empty blocks with the blank-line separator is
itself stripped. -/
theorem pyStrip_joinSep {bs : List (List Char)}
    (h : ∀ b ∈ bs, b ≠ [] ∧ pyStrip b = b) :
    pyStrip (joinSep ['\n', '\n'] bs) = joinSep ['\n', '\n'] bs := by
  apply pyStrip_eq_self_of
  · cases bs with
    | nil => rfl
    | cons b rest =>
      have hb := h b (by simp)
      have hfix := (pyStrip_eq_self_parts hb.2).1
      cases rest with
      | nil => exact hfix
      | cons y r =>
        rw [show joinSep ['\n', '\n'] (b :: y :: r) =
            b ++ (['\n', '\n'] ++ joinSep ['\n', '\n'] (y :: r)) from by
          simp [joinSep, List.append_assoc]]
        exact dropWhile_append_self hfix hb.1 _
  · induction bs with
    | nil => rfl
    | cons b rest ih =>
      have hb := h b (by simp)
      have hfix := (pyStrip_eq_self_parts hb.2).2
      cases rest with
      | nil => exact hfix
      | cons y r =>
        have hy := h y (by simp)
        have hJ : joinSep ['\n', '\n'] (y :: r) ≠ [] := joinSep_ne_nil hy.1 r
        have hih := ih fun x hx => h x (by simp [hx])
        rw [show joinSep ['\n', '\n'] (b :: y :: r) =
            b ++ (['\n', '\n'] ++ joinSep ['\n', '\n'] (y :: r)) from by
          simp [joinSep, List.append_assoc]]
        rw [List.reverse_append, List.reverse_append, List.append_assoc]
        exact dropWhile_append_self hih (by simpa using hJ) _

/-- A non-empty `pyStrip` fixed point does not end in a newline. -/
theorem getLast_not_newline {b : List Char} (hb : pyStrip b = b) (hne : b ≠ []) :
    b.getLast? ≠ some '\n' := by
  have h2 := (pyStrip_eq_self_parts hb).2
  cases hr : b.reverse with
  | nil => exact absurd (by simpa using congrArg List.reverse hr) hne
  | cons c rest =>
    rw [hr] at h2
    have hc := dropWhile_eq_self_head h2
    have hlast : b.getLast? = some c := by
      rw [← List.head?_reverse, hr]
      rfl
    rw [hlast]
    intro hcontra
    have : c = '\n' := by injection hcontra
    rw [this] at hc
    exact absurd hc (by decide)

/-- Splitting `b ++ "\n\n" ++ t` on the double newline cuts exactly at the
separator, provided `b` contains no double newline and does not end in a
newline. -/
theorem split2_sep_append :
    ∀ b t : List Char, b ≠ [] → containsSub ['\n', '\n'] b = false →
      b.getLast? ≠ some '\n' →
      split2 '\n' '\n' (b ++ '\n' :: '\n' :: t) = b :: split2 '\n' '\n' t := by
  intro b
  induction b with
  | nil => intro t h _ _; exact absurd rfl h
  | cons c b' ih =>
    intro t _ hsub hlast
    cases b' with
    | nil =>
      have hc : c ≠ '\n' := by
        intro hcontra
        apply hlast
        rw [hcontra]
        rfl
      rw [show (([c] ++ '\n' :: '\n' :: t : List Char)) = c :: '\n' :: '\n' :: t from rfl]
      rw [split2, if_neg (fun hp => hc hp.1)]
      rw [split2, if_pos ⟨rfl, rfl⟩]
    | cons c2 b2 =>
      simp only [containsSub, Bool.or_eq_false_iff] at hsub
      have hpair : ¬(c = '\n' ∧ c2 = '\n') := by
        rintro ⟨rfl, rfl⟩
        simp [startsWith] at hsub
      rw [show ((c :: c2 :: b2) ++ '\n' :: '\n' :: t : List Char) =
        c :: ((c2 :: b2) ++ '\n' :: '\n' :: t) from rfl]
      rw [show ((c2 :: b2) ++ '\n' :: '\n' :: t : List Char) =
        c2 :: (b2 ++ '\n' :: '\n' :: t) from rfl]
      rw [split2, if_neg hpair]
      rw [show (c2 :: (b2 ++ '\n' :: '\n' :: t) : List Char) =
        (c2 :: b2) ++ '\n' :: '\n' :: t from rfl]
      rw [ih t (by simp) (by
        simp only [containsSub, Bool.or_eq_false_iff]
        exact hsub.2) (by
        rw [← List.getLast?_cons_cons]
        exact hlast)]

/-- Splitting the blank-line join of well-formed blocks recovers the blocks. -/
theorem split2_joinSep {bs : List (List Char)} (hne : bs ≠ [])
    (h : ∀ b ∈ bs, b ≠ [] ∧ containsSub ['\n', '\n'] b = false ∧
      b.getLast? ≠ some '\n') :
    split2 '\n' '\n' (joinSep ['\n', '\n'] bs) = bs := by
  induction bs with
  | nil => exact absurd rfl hne
  | cons b rest ih =>
    have hb := h b (by simp)
    cases rest with
    | nil => exact split2_eq_single b hb.2.1
    | cons y r =>
      rw [show joinSep ['\n', '\n'] (b :: y :: r) =
          b ++ '\n' :: '\n' :: joinSep ['\n', '\n'] (y :: r) from by
        simp [joinSep, List.append_assoc]]
      rw [split2_sep_append b _ hb.1 hb.2.1 hb.2.2]
      rw [ih (by simp) fun x hx => h x (by simp [hx])]

/-- C9: entries come out in block order. For blocks that are non-empty,
stripped, free of internal blank-line separators and free of carriage
returns, parsing their blank-line join yields exactly the per-block results
in order (`filterMap` keeps the input order and drops only unparseable
blocks, with no sorting by time). -/
theorem c9_block_order (bs : List (List Char))
    (h : ∀ b ∈ bs, b ≠ [] ∧ pyStrip b = b ∧
      containsSub ['\n', '\n'] b = false ∧ '\r' ∉ b) :
    parse_srt (joinSep ['\n', '\n'] bs) = bs.filterMap parseBlock := by
  cases hbs : bs with
  | nil => decide
  | cons b rest =>
    rw [parse_srt_eq_filterMap]
    rw [hbs] at h
    congr 1
    unfold blocksOf
    rw [normEol_id (not_mem_joinSep (b :: rest) (by decide) fun x hx => (h x hx).2.2.2)]
    rw [pyStrip_joinSep fun x hx => ⟨(h x hx).1, (h x hx).2.1⟩]
    exact split2_joinSep (by simp) fun x hx =>
      ⟨(h x hx).1, (h x hx).2.2.1, getLast_not_newline (h x hx).2.1 (h x hx).1⟩

/-- C9 witness: the order theorem applied to three concrete parseable
blocks. -/
theorem c9_block_order_witness :
    parse_srt (joinSep ['\n', '\n']
      ["1\n00:00:01,000 --> 00:00:04,000\nHello world".data,
       "2\n00:00:05,000 --> 00:00:07,000\nGoodbye".data,
       "3\n00:00:08,000 --> 00:00:09,000\nLast one".data]) =
    List.filterMap parseBlock
      ["1\n00:00:01,000 --> 00:00:04,000\nHello world".data,
       "2\n00:00:05,000 --> 00:00:07,000\nGoodbye".data,
       "3\n00:00:08,000 --> 00:00:09,000\nLast one".data] :=
  c9_block_order _ (by decide)
